import Mathlib

/-!
Shallow embedding of `dm-data-tokenization-replacer` (`src/main.py`) and
verification of its specification claims.

Python dicts are insertion ordered, so both the token map and a CSV record
are modelled as ordered association lists.  File contents are passed as
values (`none` models a missing file); the `uuid.uuid4()` draws are
modelled by an explicit stream of candidate strings, and the unbounded
redraw / scan loops by fuel.
-/

namespace DataTok

/-- A data record: the ordered association of column name to cell value
produced by `csv.DictReader` for one row. -/
abbrev Record := List (String × String)

/-- The token map `token_map`: ordered association of token to original value. -/
abbrev Mapping := List (String × String)

/-- Key membership `k in token_map` (Python dict). -/
def isKey (m : Mapping) (k : String) : Bool :=
  m.any (fun p => p.1 == k)

/-- Lookup `token_map[k]`, as an option (Python dict). -/
def lookupKey (m : Mapping) (k : String) : Option String :=
  (m.find? (fun p => p.1 == k)).map (·.2)

/-- Reverse scan `next((k for k, v in token_map.items() if v == value), None)`: the first
token whose mapped value equals `value`, in insertion order. -/
def revLookup (m : Mapping) (v : String) : Option String :=
  (m.find? (fun p => p.2 == v)).map (·.1)

/-- Assignment `token_map[k] = v` (Python dict assignment on an insertion-ordered dict):
overwrite the value in place if the key exists, otherwise append. -/
def dinsert (m : Mapping) (k v : String) : Mapping :=
  if isKey m k then m.map (fun p => if p.1 == k then (k, v) else p)
  else m ++ [(k, v)]

/-- The keys of the token map, in order. -/
def keys (m : Mapping) : List String := m.map (·.1)

/-- The mapped values of the token map, in order. -/
def vals (m : Mapping) : List String := m.map (·.2)

/-!
### Decimal representation

`str(next_id)` in Python is `Nat.repr` here.  The library has no
injectivity lemma for `Nat.repr`, so we establish one via a parsing
round-trip over `Nat.toDigitsCore`.
-/

/-- Numeric value of a decimal digit character. -/
def digitVal (c : Char) : Nat := c.toNat - 48

/-- Parse a list of decimal digit characters, most significant first. -/
def parseDec (l : List Char) : Nat :=
  l.foldl (fun x c => 10 * x + digitVal c) 0

theorem toDigitsCore_ten_append :
    ∀ (f n : Nat) (ds : List Char),
      Nat.toDigitsCore 10 f n ds = Nat.toDigitsCore 10 f n [] ++ ds := by
  intro f
  induction f with
  | zero => intro n ds; rfl
  | succ f ih =>
    intro n ds
    simp only [Nat.toDigitsCore]
    by_cases h : n / 10 = 0
    · simp [h]
    · simp only [h, if_false, ih (n / 10) (Nat.digitChar (n % 10) :: ds),
        ih (n / 10) [Nat.digitChar (n % 10)]]
      simp

theorem digitVal_digitChar {m : Nat} (h : m < 10) :
    digitVal (Nat.digitChar m) = m := by
  interval_cases m <;> rfl

theorem parseDec_append_singleton (l : List Char) (c : Char) :
    parseDec (l ++ [c]) = 10 * parseDec l + digitVal c := by
  simp [parseDec, List.foldl_append]

theorem parseDec_toDigitsCore :
    ∀ (n f : Nat), n < f → parseDec (Nat.toDigitsCore 10 f n []) = n := by
  intro n
  induction n using Nat.strong_induction_on with
  | _ n ih =>
    intro f hf
    cases f with
    | zero => omega
    | succ f =>
      simp only [Nat.toDigitsCore]
      by_cases h : n / 10 = 0
      · have hn : n < 10 := by omega
        have hmod : n % 10 = n := Nat.mod_eq_of_lt hn
        simp [h, parseDec, hmod, digitVal_digitChar hn]
      · have h10 : 10 ≤ n := by
          by_contra hlt
          exact h (Nat.div_eq_of_lt (by omega))
        have hdiv : n / 10 < n := Nat.div_lt_self (by omega) (by omega)
        have hf' : n / 10 < f := by omega
        rw [if_neg h, toDigitsCore_ten_append, parseDec_append_singleton,
          ih (n / 10) hdiv f hf', digitVal_digitChar (Nat.mod_lt _ (by omega))]
        omega

theorem natRepr_injective : Function.Injective Nat.repr := by
  intro a b h
  have h2 : Nat.toDigits 10 a = Nat.toDigits 10 b := congrArg String.data h
  have ha := parseDec_toDigitsCore a (a + 1) (Nat.lt_succ_self a)
  have hb := parseDec_toDigitsCore b (b + 1) (Nat.lt_succ_self b)
  calc a = parseDec (Nat.toDigitsCore 10 (a + 1) a []) := ha.symm
    _ = parseDec (Nat.toDigitsCore 10 (b + 1) b []) := congrArg parseDec h2
    _ = b := hb

/-- Reading `row[c]` guarded by `column in row` (first cell named `c`, as an
option; `csv.DictReader` rows have distinct column names, for which this
agrees with the Python dict). -/
def getCol (r : Record) (c : String) : Option String :=
  (r.find? (fun p => p.1 == c)).map (·.2)

/-- Assignment `row[c] = v`: update the first cell named `c` in place. -/
def setCol : Record → String → String → Record
  | [], _, _ => []
  | p :: ps, c, v => if p.1 == c then (c, v) :: ps else p :: setCol ps c v

/-!
### Token generators (`src/main.py` lines 45-78)
-/

/-- The redraw loop of `generate_uuid_token` (lines 54-57): draw from the
stream, redraw while the draw is already a key, bounded by fuel. -/
def uuidScan (stream : Nat → String) (m : Mapping) : Nat → Nat → String
  | 0, i => stream i
  | fuel + 1, i => if isKey m (stream i) then uuidScan stream m fuel (i + 1) else stream i

/-- Function `generate_uuid_token` (lines 45-59): return the existing token for
`value` if the reverse scan finds one, otherwise draw a fresh uuid. -/
def generate_uuid_token (stream : Nat → String) (fuel : Nat)
    (value : String) (token_map : Mapping) : String :=
  match revLookup token_map value with
  | some t => t
  | none => uuidScan stream token_map fuel 0

/-- The `while str(next_id) in token_map: next_id += 1` loop of
`generate_sequential_token` (lines 74-76), bounded by fuel;
`token_map.length + 1` candidates always suffice. -/
def seqScan (m : Mapping) : Nat → Nat → Nat
  | 0, n => n
  | fuel + 1, n => if isKey m (Nat.repr n) then seqScan m fuel (n + 1) else n

/-- Function `generate_sequential_token` (lines 62-78): return the existing token for
`value` if the reverse scan finds one, otherwise the first integer from 1
upward whose decimal form is not yet a key. -/
def generate_sequential_token (value : String) (token_map : Mapping) : String :=
  match revLookup token_map value with
  | some t => t
  | none => Nat.repr (seqScan token_map (token_map.length + 1) 1)

/-!
### Mapping store (lines 92-105, 144-152, 159-173)
-/

/-- One row of the token-map file: `token_map[row[0]] = row[1]` when the row
has exactly two fields, otherwise the row is skipped with a warning
(lines 97-101 and 163-167). -/
def loadRow (m : Mapping) (row : List String) : Mapping :=
  match row with
  | [a, b] => dinsert m a b
  | _ => m

/-- Load the token-map file contents into the in-memory map. -/
def loadMap (content : List (List String)) : Mapping :=
  content.foldl loadRow []

/-- Save the token map: `writer.writerow([token, value])` for each entry,
in order (lines 146-149). -/
def saveMap (m : Mapping) : List (List String) :=
  m.map (fun p => [p.1, p.2])

/-!
### Tokenizer core (lines 119-136)
-/

/-- The warning text of line 134. -/
def colWarning (c : String) : String :=
  "Column " ++ c ++ " not found in input file."

/-- State threaded through tokenization: the in-memory token map and the
warnings logged so far. -/
structure TokState where
  map : Mapping
  warnings : List String
  deriving DecidableEq, Repr

/-- The body of `for column in tokenize_columns` (lines 124-134): if the
column is present, reuse the token found by reverse lookup or generate and
insert a new one, then substitute it; otherwise log a warning. -/
def processColumn (gen : String → Mapping → String)
    (st : Record × TokState) (c : String) : Record × TokState :=
  match getCol st.1 c with
  | none => (st.1, ⟨st.2.map, st.2.warnings ++ [colWarning c]⟩)
  | some v =>
    match revLookup st.2.map v with
    | some t => (setCol st.1 c t, st.2)
    | none =>
      let t := gen v st.2.map
      (setCol st.1 c t, ⟨dinsert st.2.map t v, st.2.warnings⟩)

/-- Process one record (the inner loop of lines 123-136). -/
def tokenizeRow (gen : String → Mapping → String) (cols : List String)
    (r : Record) (st : TokState) : Record × TokState :=
  cols.foldl (processColumn gen) (r, st)

/-- Process all records in order (lines 123-136). -/
def tokenizeRows (gen : String → Mapping → String) (cols : List String) :
    List Record → TokState → List Record × TokState
  | [], st => ([], st)
  | r :: rs, st =>
    let p := tokenizeRow gen cols r st
    let q := tokenizeRows gen cols rs p.2
    (p.1 :: q.1, q.2)

/-!
### Detokenizer core (lines 183-187)
-/

/-- Loop `for column in reader.fieldnames: if row[column] in token_map:
row[column] = token_map[row[column]]` — each cell is looked up exactly once
against the token keys and replaced on an exact match. -/
def detokenizeRow (m : Mapping) (r : Record) : Record :=
  r.map (fun p =>
    match lookupKey m p.2 with
    | some v => (p.1, v)
    | none => p)

/-!
### Full operations with explicit file I/O (lines 80-152 and 155-193)

A file's contents are passed as a value; `none` models a missing file.
The trace records which files were read or written, in program order.
-/

/-- File I/O events of one operation. -/
inductive Ev
  | readMapFile
  | readInputFile
  | writeOutputFile
  | writeMapFile
  deriving DecidableEq, Repr

/-- The exceptions the program raises. -/
inductive PyError
  | valueError (msg : String)
  | fileNotFoundError (msg : String)
  deriving DecidableEq, Repr

/-- Function `tokenize_data` (lines 80-152).  In program order: if the token-map file
exists it is read (lines 92-105); then the method is checked (lines
107-112, `ValueError` on an unknown method); then the input is opened
(`FileNotFoundError` if missing), the records are processed and written,
and finally the token map is written back (lines 144-152). -/
def tokenize_data (stream : Nat → String) (fuel : Nat)
    (input_file : Option (List Record)) (tokenize_columns : List String)
    (token_method : String) (token_map_file : Option (List (List String))) :
    List Ev × Except PyError (List Record × List (List String)) :=
  let tr : List Ev := match token_map_file with
    | some _ => [Ev.readMapFile]
    | none => []
  let m0 : Mapping := match token_map_file with
    | some content => loadMap content
    | none => []
  if token_method = "uuid" ∨ token_method = "sequential" then
    let gen := if token_method = "uuid" then generate_uuid_token stream fuel
      else generate_sequential_token
    match input_file with
    | none => (tr, .error (.fileNotFoundError "input"))
    | some rows =>
      let p := tokenizeRows gen tokenize_columns rows ⟨m0, []⟩
      (tr ++ [Ev.readInputFile, Ev.writeOutputFile, Ev.writeMapFile],
        .ok (p.1, saveMap p.2.map))
  else (tr, .error (.valueError ("Invalid token_method: " ++ token_method)))

/-- Function `detokenize_data` (lines 155-193): the token-map file is required
(`FileNotFoundError` when missing, lines 168-170); then every cell of every
record is replaced through a single lookup against the token keys. -/
def detokenize_data (input_file : Option (List Record))
    (token_map_file : Option (List (List String))) :
    Except PyError (List Record) :=
  match token_map_file with
  | none => .error (.fileNotFoundError "token map")
  | some content =>
    let m := loadMap content
    match input_file with
    | none => .error (.fileNotFoundError "input")
    | some rows => .ok (rows.map (detokenizeRow m))

/-!
### Basic lemmas about the map and record operations
-/

theorem isKey_eq_true_iff (m : Mapping) (k : String) :
    isKey m k = true ↔ k ∈ keys m := by
  simp only [isKey, List.any_eq_true, keys, List.mem_map, beq_iff_eq]

theorem isKey_eq_false_iff (m : Mapping) (k : String) :
    isKey m k = false ↔ k ∉ keys m := by
  rw [← Bool.not_eq_true, not_iff_not.mpr (isKey_eq_true_iff m k)]

theorem keys_append (m e : Mapping) : keys (m ++ e) = keys m ++ keys e :=
  List.map_append _ m e

theorem vals_append (m e : Mapping) : vals (m ++ e) = vals m ++ vals e :=
  List.map_append _ m e

theorem lookupKey_of_mem_nodup {m : Mapping} {t v : String}
    (hm : (keys m).Nodup) (h : (t, v) ∈ m) : lookupKey m t = some v := by
  induction m with
  | nil => simp at h
  | cons p ps ih =>
    rw [keys] at hm
    simp only [List.map_cons, List.nodup_cons] at hm
    rcases List.mem_cons.mp h with h1 | h1
    · subst h1
      simp [lookupKey]
    · have hne : p.1 ≠ t := by
        intro he
        exact hm.1 (he ▸ List.mem_map.mpr ⟨(t, v), h1, rfl⟩)
      have := ih hm.2 h1
      simp only [lookupKey] at this ⊢
      rw [List.find?_cons_of_neg _ (by simpa using hne)]
      exact this

theorem mem_of_revLookup_eq_some {m : Mapping} {v t : String}
    (h : revLookup m v = some t) : (t, v) ∈ m := by
  simp only [revLookup, Option.map_eq_some'] at h
  obtain ⟨p, hp, he⟩ := h
  have h2 := List.find?_some hp
  have h3 := List.mem_of_find?_eq_some hp
  rw [beq_iff_eq] at h2
  have : p = (t, v) := by
    cases p; simp_all
  exact this ▸ h3

theorem revLookup_eq_none_iff (m : Mapping) (v : String) :
    revLookup m v = none ↔ v ∉ vals m := by
  simp only [revLookup, Option.map_eq_none', List.find?_eq_none, vals,
    List.mem_map, beq_iff_eq]
  constructor
  · rintro h ⟨p, hp, he⟩; exact h p hp he
  · rintro h p hp he; exact h ⟨p, hp, he⟩

theorem revLookup_append_left {m : Mapping} (e : Mapping) {v t : String}
    (h : revLookup m v = some t) : revLookup (m ++ e) v = some t := by
  simp only [revLookup, Option.map_eq_some'] at h ⊢
  obtain ⟨p, hp, he⟩ := h
  exact ⟨p, by rw [List.find?_append, hp]; rfl, he⟩

theorem dinsert_of_fresh {m : Mapping} {k : String} (v : String)
    (h : isKey m k = false) : dinsert m k v = m ++ [(k, v)] := by
  simp [dinsert, h]

theorem getCol_nil (c : String) : getCol [] c = none := rfl

theorem setCol_map_fst (r : Record) (c v : String) :
    (setCol r c v).map (·.1) = r.map (·.1) := by
  induction r with
  | nil => rfl
  | cons p ps ih =>
    by_cases h : p.1 = c
    · simp [setCol, h]
    · simp [setCol, h, ih]

theorem getCol_setCol_ne (r : Record) {c c' : String} (v : String)
    (h : c' ≠ c) : getCol (setCol r c v) c' = getCol r c' := by
  induction r with
  | nil => rfl
  | cons p ps ih =>
    by_cases hp : p.1 = c
    · simp only [setCol, hp, beq_self_eq_true, if_true, getCol]
      rw [List.find?_cons_of_neg _ (by simpa using (Ne.symm h)),
        List.find?_cons_of_neg _ (by simpa [hp] using (Ne.symm h))]
    · simp only [setCol, beq_iff_eq, hp, if_false]
      by_cases hc : p.1 = c'
      · simp [getCol, hc]
      · simp only [getCol] at ih ⊢
        rw [List.find?_cons_of_neg _ (by simpa using hc),
          List.find?_cons_of_neg _ (by simpa using hc)]
        exact ih

theorem getCol_setCol_self {r : Record} {c w : String} (v : String)
    (h : getCol r c = some w) : getCol (setCol r c v) c = some v := by
  induction r with
  | nil => simp [getCol] at h
  | cons p ps ih =>
    by_cases hp : p.1 = c
    · simp [setCol, hp, getCol]
    · simp only [setCol, beq_iff_eq, hp, if_false]
      simp only [getCol] at h ⊢
      rw [List.find?_cons_of_neg _ (by simpa using hp)] at h
      rw [List.find?_cons_of_neg _ (by simpa using hp)]
      exact ih h

/-!
### Generator lemmas
-/

/-- A generator is fresh when, invoked on a value with no existing token,
it returns a token that is not yet a key.  Both strategies of the source
have this property (the uuid one given enough distinct draws). -/
def GenFresh (gen : String → Mapping → String) : Prop :=
  ∀ v m, revLookup m v = none → isKey m (gen v m) = false

theorem uuidScan_fresh (stream : Nat → String) (m : Mapping) :
    ∀ (fuel i : Nat), (∃ j, j ≤ fuel ∧ isKey m (stream (i + j)) = false) →
      isKey m (uuidScan stream m fuel i) = false := by
  intro fuel
  induction fuel with
  | zero =>
    intro i ⟨j, hj, hf⟩
    have : j = 0 := Nat.le_zero.mp hj
    subst this
    simpa using hf
  | succ fuel ih =>
    intro i ⟨j, hj, hf⟩
    simp only [uuidScan]
    by_cases h : isKey m (stream i) = true
    · rw [if_pos h]
      have hj0 : j ≠ 0 := by
        intro h0; subst h0; simp at hf; rw [hf] at h; exact Bool.false_ne_true h
      refine ih (i + 1) ⟨j - 1, by omega, ?_⟩
      have : i + 1 + (j - 1) = i + j := by omega
      rw [this]; exact hf
    · rw [if_neg h]
      exact Bool.not_eq_true _ |>.mp h

/-- The sequential scan returns the first candidate at or above `start`
whose decimal form is not a key, provided one exists within fuel. -/
theorem seqScan_spec (m : Mapping) :
    ∀ (fuel start : Nat), (∃ j, j ≤ fuel ∧ isKey m (Nat.repr (start + j)) = false) →
      start ≤ seqScan m fuel start ∧
      isKey m (Nat.repr (seqScan m fuel start)) = false ∧
      ∀ k, start ≤ k → k < seqScan m fuel start → isKey m (Nat.repr k) = true := by
  intro fuel
  induction fuel with
  | zero =>
    intro start ⟨j, hj, hf⟩
    have : j = 0 := Nat.le_zero.mp hj
    subst this
    simp only [seqScan]
    exact ⟨Nat.le_refl _, by simpa using hf, fun k h1 h2 => absurd h2 (by omega)⟩
  | succ fuel ih =>
    intro start ⟨j, hj, hf⟩
    simp only [seqScan]
    by_cases h : isKey m (Nat.repr start) = true
    · rw [if_pos h]
      have hj0 : j ≠ 0 := by
        intro h0; subst h0; simp at hf; rw [hf] at h; exact Bool.false_ne_true h
      have hex : ∃ j', j' ≤ fuel ∧ isKey m (Nat.repr (start + 1 + j')) = false := by
        refine ⟨j - 1, by omega, ?_⟩
        have : start + 1 + (j - 1) = start + j := by omega
        rw [this]; exact hf
      obtain ⟨h1, h2, h3⟩ := ih (start + 1) hex
      refine ⟨by omega, h2, fun k hk1 hk2 => ?_⟩
      rcases Nat.eq_or_lt_of_le hk1 with he | hlt
      · exact he ▸ h
      · exact h3 k hlt hk2
    · rw [if_neg h]
      exact ⟨Nat.le_refl _, Bool.not_eq_true _ |>.mp h,
        fun k h1 h2 => absurd h2 (by omega)⟩

/-- Pigeonhole: among the `m.length + 1` candidates `1, …, m.length + 1`,
some decimal form is not a key of `m`. -/
theorem seq_fresh_exists (m : Mapping) :
    ∃ j, j ≤ m.length ∧ isKey m (Nat.repr (1 + j)) = false := by
  by_contra hall
  push_neg at hall
  have hkey : ∀ j, j ≤ m.length → isKey m (Nat.repr (1 + j) ) = true := by
    intro j hj
    have := hall j hj
    exact Bool.not_eq_false _ |>.mp this
  have hsub : ((List.range (m.length + 1)).map (fun j => Nat.repr (1 + j))) ⊆ keys m := by
    intro s hs
    simp only [List.mem_map, List.mem_range] at hs
    obtain ⟨j, hj, he⟩ := hs
    subst he
    exact (isKey_eq_true_iff m _).mp (hkey j (by omega))
  have hnd : ((List.range (m.length + 1)).map (fun j => Nat.repr (1 + j))).Nodup := by
    refine List.Nodup.map ?_ (List.nodup_range _)
    intro a b hab
    have := natRepr_injective hab
    omega
  have hlen := (List.subperm_of_subset hnd hsub).length_le
  simp only [List.length_map, List.length_range, keys, List.length_map] at hlen
  omega

theorem generate_sequential_token_genFresh : GenFresh generate_sequential_token := by
  intro v m hv
  simp only [generate_sequential_token, hv]
  obtain ⟨j, hj, hf⟩ := seq_fresh_exists m
  exact (seqScan_spec m (m.length + 1) 1 ⟨j, by omega, hf⟩).2.1

theorem generate_uuid_token_fresh (stream : Nat → String) (fuel : Nat)
    (v : String) (m : Mapping) (hv : revLookup m v = none)
    (hs : ∃ j, j ≤ fuel ∧ isKey m (stream j) = false) :
    isKey m (generate_uuid_token stream fuel v m) = false := by
  simp only [generate_uuid_token, hv]
  obtain ⟨j, hj, hf⟩ := hs
  exact uuidScan_fresh stream m fuel 0 ⟨j, hj, by simpa using hf⟩

/-- Both generators return the existing token when the reverse scan finds
one: generation is not reached. -/
theorem generator_reuses_existing (v t : String) (m : Mapping)
    (h : revLookup m v = some t) :
    generate_sequential_token v m = t ∧
    ∀ stream fuel, generate_uuid_token stream fuel v m = t := by
  constructor
  · simp [generate_sequential_token, h]
  · intro stream fuel; simp [generate_uuid_token, h]

/-!
### Detokenizer cell lemma
-/

theorem getCol_detokenizeRow (m : Mapping) (r : Record) (c : String) :
    getCol (detokenizeRow m r) c =
      (getCol r c).map (fun w =>
        match lookupKey m w with
        | some v => v
        | none => w) := by
  induction r with
  | nil => rfl
  | cons p ps ih =>
    by_cases h : p.1 = c
    · simp only [detokenizeRow, List.map_cons, getCol]
      cases hk : lookupKey m p.2 with
      | none =>
        rw [List.find?_cons_of_pos _ (by simpa using h),
          List.find?_cons_of_pos _ (by simpa using h)]
        simp [hk]
      | some w =>
        rw [List.find?_cons_of_pos _ (by simpa using h),
          List.find?_cons_of_pos _ (by simpa using h)]
        simp [hk]
    · simp only [detokenizeRow, List.map_cons, getCol]
      cases hk : lookupKey m p.2 with
      | none =>
        rw [List.find?_cons_of_neg _ (by simpa using h),
          List.find?_cons_of_neg _ (by simpa using h)]
        exact ih
      | some w =>
        rw [List.find?_cons_of_neg _ (by simpa using h),
          List.find?_cons_of_neg _ (by simpa using h)]
        exact ih

/-!
### Tokenizer invariants
-/

/-- Each token appears as a key at most once. -/
def NodupKeys (m : Mapping) : Prop := (keys m).Nodup

/-- Each original value appears as a mapped value at most once. -/
def NodupVals (m : Mapping) : Prop := (vals m).Nodup

theorem revLookup_insert_self {m : Mapping} {v : String} (t : String)
    (h : revLookup m v = none) : revLookup (m ++ [(t, v)]) v = some t := by
  simp only [revLookup, Option.map_eq_none'] at h
  simp [revLookup, List.find?_append, h]

theorem processColumn_getCol_ne (gen : String → Mapping → String)
    (r : Record) (st : TokState) {c c' : String} (h : c' ≠ c) :
    getCol (processColumn gen (r, st) c).1 c' = getCol r c' := by
  cases hgc : getCol r c with
  | none => simp [processColumn, hgc]
  | some v =>
    cases hrv : revLookup st.map v with
    | none => simp [processColumn, hgc, hrv, getCol_setCol_ne _ _ h]
    | some t => simp [processColumn, hgc, hrv, getCol_setCol_ne _ _ h]

theorem processColumn_getCol_none (gen : String → Mapping → String)
    (r : Record) (st : TokState) {c : String} (c' : String)
    (h : getCol r c = none) :
    getCol (processColumn gen (r, st) c').1 c = none := by
  by_cases he : c = c'
  · subst he
    simp [processColumn, h]
  · rw [processColumn_getCol_ne gen r st he]
    exact h

theorem processColumn_map_fst (gen : String → Mapping → String)
    (r : Record) (st : TokState) (c : String) :
    (processColumn gen (r, st) c).1.map (·.1) = r.map (·.1) := by
  cases hgc : getCol r c with
  | none => simp [processColumn, hgc]
  | some v =>
    cases hrv : revLookup st.map v with
    | none => simp [processColumn, hgc, hrv, setCol_map_fst]
    | some t => simp [processColumn, hgc, hrv, setCol_map_fst]

theorem processColumn_warnings (gen : String → Mapping → String)
    (r : Record) (st : TokState) (c : String) :
    ∃ w, (processColumn gen (r, st) c).2.warnings = st.warnings ++ w := by
  cases hgc : getCol r c with
  | none => exact ⟨[colWarning c], by simp [processColumn, hgc]⟩
  | some v =>
    cases hrv : revLookup st.map v with
    | none => exact ⟨[], by simp [processColumn, hgc, hrv]⟩
    | some t => exact ⟨[], by simp [processColumn, hgc, hrv]⟩

theorem processColumn_map_ext (gen : String → Mapping → String)
    (hg : GenFresh gen) (r : Record) (st : TokState) (c : String) :
    ∃ e, (processColumn gen (r, st) c).2.map = st.map ++ e ∧
      (∀ p ∈ e, revLookup st.map p.2 = none ∧ isKey st.map p.1 = false) := by
  cases hgc : getCol r c with
  | none => exact ⟨[], by simp [processColumn, hgc]⟩
  | some v =>
    cases hrv : revLookup st.map v with
    | some t => exact ⟨[], by simp [processColumn, hgc, hrv]⟩
    | none =>
      refine ⟨[(gen v st.map, v)], ?_, ?_⟩
      · simp [processColumn, hgc, hrv, dinsert_of_fresh _ (hg v st.map hrv)]
      · intro p hp
        simp only [List.mem_singleton] at hp
        subst hp
        exact ⟨hrv, hg v st.map hrv⟩

theorem tokenizeRow_nil (gen : String → Mapping → String)
    (r : Record) (st : TokState) : tokenizeRow gen [] r st = (r, st) := rfl

theorem tokenizeRow_cons (gen : String → Mapping → String) (c : String)
    (cs : List String) (r : Record) (st : TokState) :
    tokenizeRow gen (c :: cs) r st =
      tokenizeRow gen cs (processColumn gen (r, st) c).1
        (processColumn gen (r, st) c).2 := by
  simp [tokenizeRow]

theorem tokenizeRow_map_fst (gen : String → Mapping → String)
    (cols : List String) : ∀ (r : Record) (st : TokState),
    (tokenizeRow gen cols r st).1.map (·.1) = r.map (·.1) := by
  induction cols with
  | nil => intro r st; rfl
  | cons c cs ih =>
    intro r st
    rw [tokenizeRow_cons, ih, processColumn_map_fst]

theorem tokenizeRow_warnings (gen : String → Mapping → String)
    (cols : List String) : ∀ (r : Record) (st : TokState),
    ∃ w, (tokenizeRow gen cols r st).2.warnings = st.warnings ++ w := by
  induction cols with
  | nil => intro r st; exact ⟨[], by simp [tokenizeRow_nil]⟩
  | cons c cs ih =>
    intro r st
    rw [tokenizeRow_cons]
    obtain ⟨w1, hw1⟩ := processColumn_warnings gen r st c
    obtain ⟨w2, hw2⟩ := ih (processColumn gen (r, st) c).1 (processColumn gen (r, st) c).2
    exact ⟨w1 ++ w2, by rw [hw2, hw1, List.append_assoc]⟩

theorem tokenizeRow_map_ext (gen : String → Mapping → String)
    (hg : GenFresh gen) (cols : List String) : ∀ (r : Record) (st : TokState),
    ∃ e, (tokenizeRow gen cols r st).2.map = st.map ++ e ∧
      (∀ p ∈ e, revLookup st.map p.2 = none ∧ isKey st.map p.1 = false) := by
  induction cols with
  | nil => intro r st; exact ⟨[], by simp [tokenizeRow_nil], by simp⟩
  | cons c cs ih =>
    intro r st
    rw [tokenizeRow_cons]
    obtain ⟨e1, he1, hp1⟩ := processColumn_map_ext gen hg r st c
    obtain ⟨e2, he2, hp2⟩ :=
      ih (processColumn gen (r, st) c).1 (processColumn gen (r, st) c).2
    refine ⟨e1 ++ e2, by rw [he2, he1, List.append_assoc], ?_⟩
    intro p hp
    rcases List.mem_append.mp hp with h | h
    · exact hp1 p h
    · obtain ⟨hrv, hik⟩ := hp2 p h
      rw [he1] at hrv hik
      constructor
      · simp only [revLookup, Option.map_eq_none', List.find?_append,
          Option.or_eq_none] at hrv
        simp [revLookup, hrv.1]
      · rw [isKey_eq_false_iff] at hik ⊢
        intro hk
        exact hik (by rw [keys_append]; exact List.mem_append_left _ hk)

theorem tokenizeRow_frame (gen : String → Mapping → String)
    (cols : List String) : ∀ (r : Record) (st : TokState) (c : String),
    c ∉ cols → getCol (tokenizeRow gen cols r st).1 c = getCol r c := by
  induction cols with
  | nil => intro r st c _; rfl
  | cons c0 cs ih =>
    intro r st c hc
    have hne : c ≠ c0 := fun h => hc (h ▸ List.mem_cons_self _ _)
    rw [tokenizeRow_cons, ih _ _ _ (fun h => hc (List.mem_cons_of_mem _ h)),
      processColumn_getCol_ne gen r st hne]

theorem tokenizeRow_absent (gen : String → Mapping → String)
    (cols : List String) : ∀ (r : Record) (st : TokState) (c : String),
    getCol r c = none →
      getCol (tokenizeRow gen cols r st).1 c = none ∧
      (c ∈ cols → colWarning c ∈ (tokenizeRow gen cols r st).2.warnings) := by
  induction cols with
  | nil =>
    intro r st c h
    exact ⟨h, by intro hf; simp at hf⟩
  | cons c0 cs ih =>
    intro r st c h
    rw [tokenizeRow_cons]
    have hnone := processColumn_getCol_none gen r st c0 h
    obtain ⟨hn, hw⟩ := ih _ _ _ hnone
    refine ⟨hn, ?_⟩
    intro hc
    rcases List.mem_cons.mp hc with he | hmem
    · subst he
      have hws : (processColumn gen (r, st) c).2.warnings =
          st.warnings ++ [colWarning c] := by
        simp [processColumn, h]
      obtain ⟨w2, hw2⟩ := tokenizeRow_warnings gen cs
        (processColumn gen (r, st) c).1 (processColumn gen (r, st) c).2
      rw [hw2, hws]
      simp
    · exact hw hmem

theorem nodupKeys_append_fresh {m : Mapping} {t : String} (v : String)
    (hik : isKey m t = false) (hk : NodupKeys m) :
    NodupKeys (m ++ [(t, v)]) := by
  simp only [NodupKeys, keys, List.map_append, List.map_singleton,
    List.nodup_append, List.nodup_singleton] at hk ⊢
  refine ⟨hk, trivial, ?_⟩
  intro a ha hb
  simp only [List.mem_singleton] at hb
  subst hb
  exact (isKey_eq_false_iff m _).mp hik ha

theorem nodupVals_append_fresh {m : Mapping} {v : String} (t : String)
    (hrv : revLookup m v = none) (hv : NodupVals m) :
    NodupVals (m ++ [(t, v)]) := by
  simp only [NodupVals, vals, List.map_append, List.map_singleton,
    List.nodup_append, List.nodup_singleton] at hv ⊢
  refine ⟨hv, trivial, ?_⟩
  intro a ha hb
  simp only [List.mem_singleton] at hb
  subst hb
  exact (revLookup_eq_none_iff m _).mp hrv ha

theorem nodup_append_fresh {m : Mapping} {t v : String}
    (hik : isKey m t = false) (hrv : revLookup m v = none) :
    (NodupKeys m → NodupKeys (m ++ [(t, v)])) ∧
    (NodupVals m → NodupVals (m ++ [(t, v)])) :=
  ⟨nodupKeys_append_fresh v hik, nodupVals_append_fresh t hrv⟩

theorem processColumn_nodup (gen : String → Mapping → String)
    (hg : GenFresh gen) (r : Record) (st : TokState) (c : String) :
    (NodupKeys st.map → NodupKeys (processColumn gen (r, st) c).2.map) ∧
    (NodupVals st.map → NodupVals (processColumn gen (r, st) c).2.map) := by
  cases hgc : getCol r c with
  | none => simp only [processColumn, hgc]; exact ⟨id, id⟩
  | some v =>
    cases hrv : revLookup st.map v with
    | some t => simp only [processColumn, hgc, hrv]; exact ⟨id, id⟩
    | none =>
      simp only [processColumn, hgc, hrv,
        dinsert_of_fresh _ (hg v st.map hrv)]
      exact nodup_append_fresh (hg v st.map hrv) hrv

theorem tokenizeRow_nodup (gen : String → Mapping → String)
    (hg : GenFresh gen) (cols : List String) : ∀ (r : Record) (st : TokState),
    (NodupKeys st.map → NodupKeys (tokenizeRow gen cols r st).2.map) ∧
    (NodupVals st.map → NodupVals (tokenizeRow gen cols r st).2.map) := by
  induction cols with
  | nil => intro r st; rw [tokenizeRow_nil]; exact ⟨id, id⟩
  | cons c cs ih =>
    intro r st
    rw [tokenizeRow_cons]
    obtain ⟨hk, hv⟩ := processColumn_nodup gen hg r st c
    obtain ⟨hk2, hv2⟩ :=
      ih (processColumn gen (r, st) c).1 (processColumn gen (r, st) c).2
    exact ⟨fun h => hk2 (hk h), fun h => hv2 (hv h)⟩

theorem tokenizeRow_cell (gen : String → Mapping → String)
    (hg : GenFresh gen) (cols : List String) (hnd : cols.Nodup) :
    ∀ (r : Record) (st : TokState) (c v : String), c ∈ cols →
      getCol r c = some v →
      ∃ t, getCol (tokenizeRow gen cols r st).1 c = some t ∧
        revLookup (tokenizeRow gen cols r st).2.map v = some t := by
  induction cols with
  | nil => intro r st c v hc; simp at hc
  | cons c0 cs ih =>
    have hnotin : c0 ∉ cs := (List.nodup_cons.mp hnd).1
    have hnd' : cs.Nodup := (List.nodup_cons.mp hnd).2
    intro r st c v hc hgc
    rcases List.mem_cons.mp hc with he | hmem
    · subst he
      rw [tokenizeRow_cons]
      cases hrv : revLookup st.map v with
      | some t =>
        have hpc : processColumn gen (r, st) c = (setCol r c t, st) := by
          simp [processColumn, hgc, hrv]
        rw [hpc]
        refine ⟨t, ?_, ?_⟩
        · rw [tokenizeRow_frame gen cs _ _ _ hnotin]
          exact getCol_setCol_self t hgc
        · obtain ⟨e, hee, _⟩ := tokenizeRow_map_ext gen hg cs (setCol r c t) st
          rw [hee]
          exact revLookup_append_left e hrv
      | none =>
        have hpc : processColumn gen (r, st) c =
            (setCol r c (gen v st.map),
              ⟨st.map ++ [(gen v st.map, v)], st.warnings⟩) := by
          simp [processColumn, hgc, hrv, dinsert_of_fresh _ (hg v st.map hrv)]
        rw [hpc]
        refine ⟨gen v st.map, ?_, ?_⟩
        · rw [tokenizeRow_frame gen cs _ _ _ hnotin]
          exact getCol_setCol_self _ hgc
        · obtain ⟨e, hee, _⟩ := tokenizeRow_map_ext gen hg cs
            (setCol r c (gen v st.map)) ⟨st.map ++ [(gen v st.map, v)], st.warnings⟩
          rw [hee]
          exact revLookup_append_left e (revLookup_insert_self _ hrv)
    · have hne : c ≠ c0 := fun h => hnotin (h ▸ hmem)
      rw [tokenizeRow_cons]
      exact ih hnd' _ _ c v hmem
        (by rw [processColumn_getCol_ne gen r st hne]; exact hgc)

/-!
### Rows-level lemmas
-/

theorem tokenizeRows_nil (gen : String → Mapping → String)
    (cols : List String) (st : TokState) :
    tokenizeRows gen cols [] st = ([], st) := rfl

theorem tokenizeRows_cons (gen : String → Mapping → String)
    (cols : List String) (r : Record) (rs : List Record) (st : TokState) :
    tokenizeRows gen cols (r :: rs) st =
      ((tokenizeRow gen cols r st).1 ::
        (tokenizeRows gen cols rs (tokenizeRow gen cols r st).2).1,
       (tokenizeRows gen cols rs (tokenizeRow gen cols r st).2).2) := rfl

theorem tokenizeRows_length (gen : String → Mapping → String)
    (cols : List String) : ∀ (rows : List Record) (st : TokState),
    (tokenizeRows gen cols rows st).1.length = rows.length := by
  intro rows
  induction rows with
  | nil => intro st; rfl
  | cons r rs ih => intro st; rw [tokenizeRows_cons]; simp [ih]

theorem ext_fresh_trans {m0 m1 : Mapping} {e1 : Mapping}
    (h1 : m1 = m0 ++ e1) (e2 : Mapping)
    (hp2 : ∀ p ∈ e2, revLookup m1 p.2 = none ∧ isKey m1 p.1 = false) :
    ∀ p ∈ e2, revLookup m0 p.2 = none ∧ isKey m0 p.1 = false := by
  intro p hp
  obtain ⟨hrv, hik⟩ := hp2 p hp
  rw [h1] at hrv hik
  constructor
  · simp only [revLookup, Option.map_eq_none', List.find?_append,
      Option.or_eq_none] at hrv
    simp [revLookup, hrv.1]
  · rw [isKey_eq_false_iff] at hik ⊢
    intro hk
    exact hik (by rw [keys_append]; exact List.mem_append_left _ hk)

theorem tokenizeRows_map_ext (gen : String → Mapping → String)
    (hg : GenFresh gen) (cols : List String) :
    ∀ (rows : List Record) (st : TokState),
    ∃ e, (tokenizeRows gen cols rows st).2.map = st.map ++ e ∧
      (∀ p ∈ e, revLookup st.map p.2 = none ∧ isKey st.map p.1 = false) := by
  intro rows
  induction rows with
  | nil => intro st; exact ⟨[], by simp [tokenizeRows_nil], by simp⟩
  | cons r rs ih =>
    intro st
    rw [tokenizeRows_cons]
    obtain ⟨e1, he1, hp1⟩ := tokenizeRow_map_ext gen hg cols r st
    obtain ⟨e2, he2, hp2⟩ := ih (tokenizeRow gen cols r st).2
    refine ⟨e1 ++ e2, by simp only [he2, he1, List.append_assoc], ?_⟩
    intro p hp
    rcases List.mem_append.mp hp with h | h
    · exact hp1 p h
    · exact ext_fresh_trans he1 e2 hp2 p h

theorem tokenizeRows_warnings (gen : String → Mapping → String)
    (cols : List String) : ∀ (rows : List Record) (st : TokState),
    ∃ w, (tokenizeRows gen cols rows st).2.warnings = st.warnings ++ w := by
  intro rows
  induction rows with
  | nil => intro st; exact ⟨[], by simp [tokenizeRows_nil]⟩
  | cons r rs ih =>
    intro st
    rw [tokenizeRows_cons]
    obtain ⟨w1, hw1⟩ := tokenizeRow_warnings gen cols r st
    obtain ⟨w2, hw2⟩ := ih (tokenizeRow gen cols r st).2
    exact ⟨w1 ++ w2, by rw [hw2, hw1, List.append_assoc]⟩

theorem tokenizeRows_nodup (gen : String → Mapping → String)
    (hg : GenFresh gen) (cols : List String) :
    ∀ (rows : List Record) (st : TokState),
    (NodupKeys st.map → NodupKeys (tokenizeRows gen cols rows st).2.map) ∧
    (NodupVals st.map → NodupVals (tokenizeRows gen cols rows st).2.map) := by
  intro rows
  induction rows with
  | nil => intro st; rw [tokenizeRows_nil]; exact ⟨id, id⟩
  | cons r rs ih =>
    intro st
    rw [tokenizeRows_cons]
    obtain ⟨hk, hv⟩ := tokenizeRow_nodup gen hg cols r st
    obtain ⟨hk2, hv2⟩ := ih (tokenizeRow gen cols r st).2
    exact ⟨fun h => hk2 (hk h), fun h => hv2 (hv h)⟩

theorem tokenizeRows_fst (gen : String → Mapping → String)
    (cols : List String) : ∀ (rows : List Record) (st : TokState),
    ∀ pr ∈ rows.zip (tokenizeRows gen cols rows st).1,
      pr.2.map (·.1) = pr.1.map (·.1) := by
  intro rows
  induction rows with
  | nil => intro st pr hpr; simp [tokenizeRows_nil] at hpr
  | cons r rs ih =>
    intro st pr hpr
    rw [tokenizeRows_cons] at hpr
    simp only [List.zip_cons_cons, List.mem_cons] at hpr
    rcases hpr with he | hmem
    · subst he
      exact tokenizeRow_map_fst gen cols r st
    · exact ih (tokenizeRow gen cols r st).2 pr hmem

theorem tokenizeRows_frame (gen : String → Mapping → String)
    (cols : List String) : ∀ (rows : List Record) (st : TokState),
    ∀ pr ∈ rows.zip (tokenizeRows gen cols rows st).1,
      ∀ c, c ∉ cols → getCol pr.2 c = getCol pr.1 c := by
  intro rows
  induction rows with
  | nil => intro st pr hpr; simp [tokenizeRows_nil] at hpr
  | cons r rs ih =>
    intro st pr hpr c hc
    rw [tokenizeRows_cons] at hpr
    simp only [List.zip_cons_cons, List.mem_cons] at hpr
    rcases hpr with he | hmem
    · subst he
      exact tokenizeRow_frame gen cols r st c hc
    · exact ih (tokenizeRow gen cols r st).2 pr hmem c hc

theorem tokenizeRows_absent (gen : String → Mapping → String)
    (cols : List String) : ∀ (rows : List Record) (st : TokState),
    ∀ pr ∈ rows.zip (tokenizeRows gen cols rows st).1,
      ∀ c, getCol pr.1 c = none →
        getCol pr.2 c = none ∧
        (c ∈ cols → colWarning c ∈ (tokenizeRows gen cols rows st).2.warnings) := by
  intro rows
  induction rows with
  | nil => intro st pr hpr; simp [tokenizeRows_nil] at hpr
  | cons r rs ih =>
    intro st pr hpr c hc
    rw [tokenizeRows_cons] at hpr
    simp only [List.zip_cons_cons, List.mem_cons] at hpr
    rcases hpr with he | hmem
    · subst he
      obtain ⟨hn, hw⟩ := tokenizeRow_absent gen cols r st c hc
      refine ⟨hn, fun hcc => ?_⟩
      obtain ⟨w2, hw2⟩ := tokenizeRows_warnings gen cols rs (tokenizeRow gen cols r st).2
      rw [tokenizeRows_cons, hw2]
      exact List.mem_append_left _ (hw hcc)
    · obtain ⟨hn, hw⟩ := ih (tokenizeRow gen cols r st).2 pr hmem c hc
      rw [tokenizeRows_cons]
      exact ⟨hn, hw⟩

theorem tokenizeRows_cell (gen : String → Mapping → String)
    (hg : GenFresh gen) (cols : List String) (hnd : cols.Nodup) :
    ∀ (rows : List Record) (st : TokState),
    ∀ pr ∈ rows.zip (tokenizeRows gen cols rows st).1,
      ∀ c ∈ cols, ∀ v, getCol pr.1 c = some v →
        ∃ t, getCol pr.2 c = some t ∧
          revLookup (tokenizeRows gen cols rows st).2.map v = some t := by
  intro rows
  induction rows with
  | nil => intro st pr hpr; simp [tokenizeRows_nil] at hpr
  | cons r rs ih =>
    intro st pr hpr c hc v hv
    rw [tokenizeRows_cons] at hpr ⊢
    simp only [List.zip_cons_cons, List.mem_cons] at hpr
    rcases hpr with he | hmem
    · subst he
      obtain ⟨t, ht1, ht2⟩ := tokenizeRow_cell gen hg cols hnd r st c v hc hv
      refine ⟨t, ht1, ?_⟩
      obtain ⟨e, hee, _⟩ := tokenizeRows_map_ext gen hg cols rs (tokenizeRow gen cols r st).2
      rw [hee]
      exact revLookup_append_left e ht2
    · exact ih (tokenizeRow gen cols r st).2 pr hmem c hc v hv

/-!
### Mapping-store lemmas
-/

/-- The (token, value) pair a file row yields, when well formed. -/
def pairOf (row : List String) : Option (String × String) :=
  match row with
  | [a, b] => some (a, b)
  | _ => none

theorem loadRow_of_pairOf_none {row : List String} (h : pairOf row = none)
    (m : Mapping) : loadRow m row = m := by
  match row with
  | [] => rfl
  | [_] => rfl
  | [_, _] => simp [pairOf] at h
  | _ :: _ :: _ :: _ => rfl

theorem loadRow_of_pairOf_some {row : List String} {a b : String}
    (h : pairOf row = some (a, b)) (m : Mapping) :
    loadRow m row = dinsert m a b := by
  match row with
  | [] => simp [pairOf] at h
  | [_] => simp [pairOf] at h
  | [x, y] =>
    simp only [pairOf, Option.some_inj, Prod.mk.injEq] at h
    simp [loadRow, h.1, h.2]
  | _ :: _ :: _ :: _ => simp [pairOf] at h

theorem dinsert_nodupKeys {m : Mapping} (k v : String)
    (h : NodupKeys m) : NodupKeys (dinsert m k v) := by
  by_cases hik : isKey m k
  · simp only [dinsert, hik, if_true]
    have : keys (m.map fun p => if p.1 == k then (k, v) else p) = keys m := by
      simp only [keys, List.map_map]
      congr 1
      funext p
      by_cases hp : p.1 = k
      · simp [hp]
      · simp [hp]
    unfold NodupKeys
    rw [this]
    exact h
  · rw [dinsert_of_fresh v (Bool.not_eq_true _ |>.mp hik)]
    exact nodupKeys_append_fresh v (Bool.not_eq_true _ |>.mp hik) h

theorem foldl_loadRow_nodupKeys (content : List (List String)) :
    ∀ m : Mapping, NodupKeys m → NodupKeys (content.foldl loadRow m) := by
  induction content with
  | nil => intro m h; exact h
  | cons row rest ih =>
    intro m h
    rw [List.foldl_cons]
    refine ih _ ?_
    cases hp : pairOf row with
    | none => rw [loadRow_of_pairOf_none hp]; exact h
    | some q => rw [loadRow_of_pairOf_some (by rw [hp]) m]; exact dinsert_nodupKeys q.1 q.2 h

theorem loadMap_nodupKeys (content : List (List String)) :
    NodupKeys (loadMap content) :=
  foldl_loadRow_nodupKeys content [] (by simp [NodupKeys, keys])

theorem foldl_loadRow_saveMap :
    ∀ (m acc : Mapping), NodupKeys (acc ++ m) →
      (saveMap m).foldl loadRow acc = acc ++ m := by
  intro m
  induction m with
  | nil => intro acc _; simp [saveMap]
  | cons p ps ih =>
    intro acc hnd
    obtain ⟨a, b⟩ := p
    have hfresh : isKey acc a = false := by
      rw [isKey_eq_false_iff]
      intro hmem
      simp only [NodupKeys, keys, List.map_append, List.map_cons,
        List.nodup_append, List.nodup_cons] at hnd
      exact hnd.2.2 hmem (List.mem_cons_self _ _)
    have hstep : loadRow acc [a, b] = acc ++ [(a, b)] := by
      rw [loadRow_of_pairOf_some (show pairOf [a, b] = some (a, b) from rfl),
        dinsert_of_fresh b hfresh]
    rw [saveMap, List.map_cons, List.foldl_cons, hstep]
    have hassoc : (acc ++ [(a, b)]) ++ ps = acc ++ (a, b) :: ps := by
      simp
    have := ih (acc ++ [(a, b)]) (by rw [hassoc]; exact hnd)
    rw [saveMap] at this
    rw [this, hassoc]

/-- Saving and re-loading a token map with unique keys is the identity:
the persisted mapping round-trips exactly. -/
theorem loadMap_saveMap {m : Mapping} (h : NodupKeys m) :
    loadMap (saveMap m) = m :=
  foldl_loadRow_saveMap m [] (by simpa using h)

theorem foldl_loadRow_filter (content : List (List String)) :
    ∀ m : Mapping,
      content.foldl loadRow m =
      (content.filter (fun r => r.length == 2)).foldl loadRow m := by
  induction content with
  | nil => intro m; rfl
  | cons row rest ih =>
    intro m
    by_cases h : row.length = 2
    · rw [List.foldl_cons, List.filter_cons_of_pos (by simpa using h),
        List.foldl_cons, ih]
    · have hnone : pairOf row = none := by
        match row with
        | [] => rfl
        | [_] => rfl
        | [_, _] => simp at h
        | _ :: _ :: _ :: _ => rfl
      rw [List.foldl_cons, loadRow_of_pairOf_none hnone,
        List.filter_cons_of_neg (by simpa using h), ih]

/-- Malformed rows contribute nothing: loading a file equals loading just
its two-field rows. -/
theorem loadMap_filter (content : List (List String)) :
    loadMap content = loadMap (content.filter (fun r => r.length == 2)) :=
  foldl_loadRow_filter content []

theorem foldl_loadRow_eq_filterMap (content : List (List String)) :
    ∀ acc : Mapping,
      ((content.filterMap pairOf).map (·.1)).Nodup →
      (∀ k ∈ (content.filterMap pairOf).map (·.1), isKey acc k = false) →
      content.foldl loadRow acc = acc ++ content.filterMap pairOf := by
  induction content with
  | nil => intro acc _ _; simp
  | cons row rest ih =>
    intro acc hnd hfresh
    cases hp : pairOf row with
    | none =>
      rw [List.foldl_cons, loadRow_of_pairOf_none hp,
        List.filterMap_cons_none hp]
      rw [List.filterMap_cons_none hp] at hnd hfresh
      exact ih acc hnd hfresh
    | some q =>
      obtain ⟨a, b⟩ := q
      rw [List.foldl_cons, loadRow_of_pairOf_some hp,
        List.filterMap_cons_some hp]
      rw [List.filterMap_cons_some hp] at hnd hfresh
      simp only [List.map_cons, List.nodup_cons] at hnd
      have hafresh : isKey acc a = false :=
        hfresh a (by simp)
      rw [dinsert_of_fresh b hafresh]
      have hrest : ∀ k ∈ (rest.filterMap pairOf).map (·.1),
          isKey (acc ++ [(a, b)]) k = false := by
        intro k hk
        rw [isKey_eq_false_iff, keys_append]
        intro hmem
        rcases List.mem_append.mp hmem with hm | hm
        · exact absurd hm ((isKey_eq_false_iff acc k).mp
            (hfresh k (List.mem_cons_of_mem _ hk)))
        · simp only [keys, List.map_singleton, List.mem_singleton] at hm
          exact hnd.1 (hm ▸ hk)
      rw [ih (acc ++ [(a, b)]) hnd.2 hrest]
      simp

/-- With pairwise-distinct tokens among the two-field rows, loading yields
exactly those rows as entries, in order. -/
theorem loadMap_eq_filterMap (content : List (List String))
    (hnd : ((content.filterMap pairOf).map (·.1)).Nodup) :
    loadMap content = content.filterMap pairOf :=
  foldl_loadRow_eq_filterMap content [] hnd (by intro k _; rfl)

/-!
### Sequential-strategy shape

Starting from an empty map, the sequential strategy produces maps of the
form `[("1", v₁), ("2", v₂), …]`: the n-th distinct value assigned gets
the decimal token `"n"`.
-/

/-- The map assigning tokens `k+1, k+2, …` to the listed values, in order. -/
def seqMapFrom (k : Nat) : List String → Mapping
  | [] => []
  | v :: vs => (Nat.repr (k + 1), v) :: seqMapFrom (k + 1) vs

/-- The map assigning tokens `1, 2, …` to the listed values, in order. -/
def seqMap (vs : List String) : Mapping := seqMapFrom 0 vs

theorem length_seqMapFrom :
    ∀ (vs : List String) (k : Nat), (seqMapFrom k vs).length = vs.length := by
  intro vs
  induction vs with
  | nil => intro k; rfl
  | cons v ws ih => intro k; simp [seqMapFrom, ih (k + 1)]

theorem vals_seqMapFrom : ∀ (vs : List String) (k : Nat),
    vals (seqMapFrom k vs) = vs := by
  intro vs
  induction vs with
  | nil => intro k; rfl
  | cons v vs ih => intro k; simp [seqMapFrom, vals] at ih ⊢; exact ih (k + 1)

theorem isKey_seqMapFrom : ∀ (vs : List String) (k n : Nat),
    isKey (seqMapFrom k vs) (Nat.repr n) = true ↔
      (k + 1 ≤ n ∧ n ≤ k + vs.length) := by
  intro vs
  induction vs with
  | nil =>
    intro k n
    simp only [seqMapFrom, isKey, List.any_nil, List.length_nil]
    constructor
    · intro h; exact absurd h (by simp)
    · intro h; omega
  | cons v vs ih =>
    intro k n
    simp only [seqMapFrom, isKey, List.any_cons, Bool.or_eq_true, beq_iff_eq,
      List.length_cons]
    rw [show (List.any (seqMapFrom (k + 1) vs) fun p => p.1 == Nat.repr n) =
      isKey (seqMapFrom (k + 1) vs) (Nat.repr n) from rfl, ih (k + 1) n]
    constructor
    · rintro (he | ⟨h1, h2⟩)
      · have := natRepr_injective he
        omega
      · omega
    · intro ⟨h1, h2⟩
      rcases Nat.eq_or_lt_of_le h1 with he | hlt
      · exact Or.inl (congrArg Nat.repr he.symm ▸ rfl)
      · exact Or.inr ⟨by omega, by omega⟩

theorem seqMapFrom_append : ∀ (vs : List String) (k : Nat) (v : String),
    seqMapFrom k (vs ++ [v]) =
      seqMapFrom k vs ++ [(Nat.repr (k + vs.length + 1), v)] := by
  intro vs
  induction vs with
  | nil => intro k v; simp [seqMapFrom]
  | cons w ws ih =>
    intro k v
    simp only [List.cons_append, seqMapFrom, List.length_cons, List.append_eq]
    rw [ih (k + 1) v]
    have harith : k + 1 + ws.length + 1 = k + (ws.length + 1) + 1 := by omega
    rw [harith]

/-- The generator on a `seqMap`-shaped mapping mints exactly the next
sequential token. -/
theorem generate_sequential_next {vs : List String} {v : String}
    (hrv : revLookup (seqMap vs) v = none) :
    generate_sequential_token v (seqMap vs) = Nat.repr (vs.length + 1) := by
  simp only [generate_sequential_token, hrv]
  congr 1
  have hex := seq_fresh_exists (seqMap vs)
  obtain ⟨j, hj, hf⟩ := hex
  have hspec := seqScan_spec (seqMap vs) ((seqMap vs).length + 1) 1 ⟨j, by omega, hf⟩
  obtain ⟨h1, h2, h3⟩ := hspec
  set r := seqScan (seqMap vs) ((seqMap vs).length + 1) 1 with hr
  have hlen : (seqMap vs).length = vs.length := length_seqMapFrom vs 0
  have hnotkey : ¬(0 + 1 ≤ r ∧ r ≤ 0 + vs.length) := by
    intro hcon
    rw [← isKey_seqMapFrom vs 0 r] at hcon
    rw [show seqMapFrom 0 vs = seqMap vs from rfl] at hcon
    rw [hcon] at h2
    simp at h2
  have hge : vs.length + 1 ≤ r := by omega
  have hle : r ≤ vs.length + 1 := by
    by_contra hgt
    push_neg at hgt
    have hkey := h3 (vs.length + 1) (by omega) (by omega)
    have : ¬(0 + 1 ≤ vs.length + 1 ∧ vs.length + 1 ≤ 0 + vs.length) := by omega
    rw [← isKey_seqMapFrom vs 0 (vs.length + 1)] at this
    rw [show seqMapFrom 0 vs = seqMap vs from rfl] at this
    rw [hkey] at this
    exact this rfl
  omega

/-- The mapping shape maintained by sequential tokenization. -/
def SeqShape (m : Mapping) : Prop :=
  ∃ vs : List String, vs.Nodup ∧ m = seqMap vs

theorem processColumn_seqShape (r : Record) (st : TokState) (c : String)
    (h : SeqShape st.map) :
    SeqShape (processColumn generate_sequential_token (r, st) c).2.map := by
  obtain ⟨vs, hnd, hm⟩ := h
  cases hgc : getCol r c with
  | none => simpa [processColumn, hgc] using ⟨vs, hnd, hm⟩
  | some v =>
    cases hrv : revLookup st.map v with
    | some t => simpa [processColumn, hgc, hrv] using ⟨vs, hnd, hm⟩
    | none =>
      have hfresh := generate_sequential_token_genFresh v st.map hrv
      simp only [processColumn, hgc, hrv, dinsert_of_fresh _ hfresh]
      refine ⟨vs ++ [v], ?_, ?_⟩
      · simp only [List.nodup_append, List.nodup_singleton]
        refine ⟨hnd, trivial, ?_⟩
        intro a ha hb
        simp only [List.mem_singleton] at hb
        subst hb
        rw [hm, revLookup_eq_none_iff] at hrv
        rw [show vals (seqMap vs) = vs from vals_seqMapFrom vs 0] at hrv
        exact hrv ha
      · rw [hm, generate_sequential_next (hm ▸ hrv)]
        rw [show seqMap (vs ++ [v]) = seqMapFrom 0 (vs ++ [v]) from rfl,
          seqMapFrom_append vs 0 v]
        simp [seqMap]

theorem tokenizeRow_seqShape (cols : List String) :
    ∀ (r : Record) (st : TokState), SeqShape st.map →
    SeqShape (tokenizeRow generate_sequential_token cols r st).2.map := by
  induction cols with
  | nil => intro r st h; rw [tokenizeRow_nil]; exact h
  | cons c cs ih =>
    intro r st h
    rw [tokenizeRow_cons]
    exact ih _ _ (processColumn_seqShape r st c h)

theorem tokenizeRows_seqShape (cols : List String) :
    ∀ (rows : List Record) (st : TokState), SeqShape st.map →
    SeqShape (tokenizeRows generate_sequential_token cols rows st).2.map := by
  intro rows
  induction rows with
  | nil => intro st h; rw [tokenizeRows_nil]; exact h
  | cons r rs ih =>
    intro st h
    rw [tokenizeRows_cons]
    exact ih _ (tokenizeRow_seqShape cols r st h)

/-- The n-th entry of a `seqMap` (0-based index i) carries token `i + 1`. -/
theorem seqMapFrom_get : ∀ (vs : List String) (k i : Nat) (h : i < vs.length),
    (Nat.repr (k + i + 1), vs.get ⟨i, h⟩) ∈ seqMapFrom k vs := by
  intro vs
  induction vs with
  | nil => intro k i h; simp at h
  | cons v ws ih =>
    intro k i h
    cases i with
    | zero => simp [seqMapFrom]
    | succ j =>
      have := ih (k + 1) j (by simpa using Nat.lt_of_succ_lt_succ h)
      simp only [seqMapFrom, List.mem_cons]
      refine Or.inr ?_
      have harith : k + (j + 1) + 1 = k + 1 + j + 1 := by omega
      rw [harith]
      simpa using this

/-- The full pipeline for the sequential method is exactly the record
processing of `tokenizeRows` plus the mapping save: the core-level theorems
below speak about the same computation `tokenize_data` performs. -/
theorem tokenize_data_sequential (stream : Nat → String) (fuel : Nat)
    (rows : List Record) (cols : List String)
    (tmf : Option (List (List String))) :
    tokenize_data stream fuel (some rows) cols "sequential" tmf =
      ((match tmf with | some _ => [Ev.readMapFile] | none => []) ++
        [Ev.readInputFile, Ev.writeOutputFile, Ev.writeMapFile],
       .ok ((tokenizeRows generate_sequential_token cols rows
          ⟨(match tmf with | some c => loadMap c | none => []), []⟩).1,
         saveMap (tokenizeRows generate_sequential_token cols rows
          ⟨(match tmf with | some c => loadMap c | none => []), []⟩).2.map)) := by
  cases tmf <;> rfl

theorem nodupKeys_value_unique {m : Mapping} (h : NodupKeys m)
    {t v v' : String} (h1 : (t, v) ∈ m) (h2 : (t, v') ∈ m) : v = v' := by
  have e1 := lookupKey_of_mem_nodup h h1
  have e2 := lookupKey_of_mem_nodup h h2
  rw [e1] at e2
  exact Option.some_inj.mp e2

/-!
### Claim theorems
-/

/-- C9: detokenization applies at most one replacement per cell: the value
is looked up once against the token keys; on a match it is replaced by the
mapped value and the result is not looked up again (so a chain — a token
mapped to a value that is itself a token — is never followed transitively);
without a match the cell is unchanged. -/
theorem C9_detokenize_single_lookup (m : Mapping) (r : Record) (c w : String)
    (h : getCol r c = some w) :
    (lookupKey m w = none → getCol (detokenizeRow m r) c = some w) ∧
    (∀ t, lookupKey m w = some t → getCol (detokenizeRow m r) c = some t) := by
  constructor
  · intro hn
    rw [getCol_detokenizeRow, h]
    simp [hn]
  · intro t ht
    rw [getCol_detokenizeRow, h]
    simp [ht]

/-- C9 witness: with the chained map `a ↦ b, b ↦ c`, the cell `a` is
replaced by `b`, not transitively by `c`. -/
theorem C9_detokenize_single_lookup_witness :
    getCol (detokenizeRow [("a", "b"), ("b", "c")] [("x", "a")]) "x" = some "b" :=
  (C9_detokenize_single_lookup [("a", "b"), ("b", "c")] [("x", "a")] "x" "a"
    (by decide)).2 "b" (by decide)

/-- C5 as stated is false: with an unknown strategy and an existing
token-map file, the run does fail with a configuration error
(`ValueError`), but only after the token-map file has been read — the
trace of the failing run is not free of file reads. -/
theorem C5_counterexample :
    (tokenize_data (fun _ => "u") 0 (some []) ["c"] "bogus" (some [["t", "v"]])).1 =
      [Ev.readMapFile] ∧
    (tokenize_data (fun _ => "u") 0 (some []) ["c"] "bogus" (some [["t", "v"]])).2 =
      .error (.valueError "Invalid token_method: bogus") := by
  constructor <;> rfl

/-- C5 amended: an unknown strategy name fails with `ValueError` before the
input file is read and before any file is written — but after the token-map
file, when present, has already been read. -/
theorem C5_unknown_strategy (stream : Nat → String) (fuel : Nat)
    (input : Option (List Record)) (cols : List String) (method : String)
    (tmf : Option (List (List String)))
    (h1 : method ≠ "uuid") (h2 : method ≠ "sequential") :
    (tokenize_data stream fuel input cols method tmf).2 =
      .error (.valueError ("Invalid token_method: " ++ method)) ∧
    Ev.readInputFile ∉ (tokenize_data stream fuel input cols method tmf).1 ∧
    Ev.writeOutputFile ∉ (tokenize_data stream fuel input cols method tmf).1 ∧
    Ev.writeMapFile ∉ (tokenize_data stream fuel input cols method tmf).1 := by
  have hcond : ¬(method = "uuid" ∨ method = "sequential") := by
    rintro (h | h)
    · exact h1 h
    · exact h2 h
  cases tmf with
  | none => simp [tokenize_data, hcond]
  | some content => simp [tokenize_data, hcond]

/-- C5 witness for the amended statement. -/
theorem C5_unknown_strategy_witness :
    (tokenize_data (fun _ => "u") 0 (some []) ["c"] "bogus" (some [["t", "v"]])).2 =
      .error (.valueError "Invalid token_method: bogus") ∧
    Ev.readInputFile ∉
      (tokenize_data (fun _ => "u") 0 (some []) ["c"] "bogus" (some [["t", "v"]])).1 :=
  ⟨(C5_unknown_strategy (fun _ => "u") 0 (some []) ["c"] "bogus"
      (some [["t", "v"]]) (by decide) (by decide)).1,
   (C5_unknown_strategy (fun _ => "u") 0 (some []) ["c"] "bogus"
      (some [["t", "v"]]) (by decide) (by decide)).2.1⟩

/-- C6: when the mapping file is missing, detokenization fails with a
not-found error, while tokenization proceeds with an empty mapping: it
computes the same result as with an existing empty mapping file and, for a
known method and an existing input, succeeds. -/
theorem C6_missing_mapping_file (stream : Nat → String) (fuel : Nat)
    (rows : List Record) (cols : List String) (method : String)
    (input : Option (List Record))
    (hm : method = "uuid" ∨ method = "sequential") :
    detokenize_data input none = .error (.fileNotFoundError "token map") ∧
    (tokenize_data stream fuel (some rows) cols method none).2 =
      (tokenize_data stream fuel (some rows) cols method (some [])).2 ∧
    (∃ out saved, (tokenize_data stream fuel (some rows) cols method none).2 =
      .ok (out, saved)) := by
  refine ⟨rfl, ?_, ?_⟩
  · simp only [tokenize_data, if_pos hm]
    rfl
  · simp only [tokenize_data, if_pos hm]
    exact ⟨_, _, rfl⟩

/-- C6 witness. -/
theorem C6_missing_mapping_file_witness :
    detokenize_data (some []) none = .error (.fileNotFoundError "token map") ∧
    (∃ out saved,
      (tokenize_data (fun _ => "u") 0 (some [[("a", "x")]]) ["a"] "sequential" none).2 =
        .ok (out, saved)) :=
  ⟨(C6_missing_mapping_file (fun _ => "u") 0 [[("a", "x")]] ["a"] "sequential"
      (some []) (Or.inr rfl)).1,
   (C6_missing_mapping_file (fun _ => "u") 0 [[("a", "x")]] ["a"] "sequential"
      (some []) (Or.inr rfl)).2.2⟩

/-- C7 as stated is false: when a later two-field row repeats an earlier
row's token, the earlier well-formed row does not survive as an entry of
the loaded mapping. -/
theorem C7_counterexample :
    (["t", "a"] : List String).length = 2 ∧
    ["t", "a"] ∈ [["t", "a"], ["t", "b"]] ∧
    ("t", "a") ∉ loadMap [["t", "a"], ["t", "b"]] := by
  refine ⟨rfl, by simp, by decide⟩

/-- C7 amended: provided no two two-field rows share the same token (the
last such row wins otherwise), every two-field row becomes an entry of the
in-memory mapping; rows with a different field count are skipped and
contribute nothing — loading equals loading only the two-field rows — and
loading always produces a mapping (malformed rows are never fatal). -/
theorem C7_load_mapping (content : List (List String))
    (hnd : ((content.filterMap pairOf).map (·.1)).Nodup) :
    (∀ a b : String, [a, b] ∈ content → (a, b) ∈ loadMap content) ∧
    loadMap content = loadMap (content.filter (fun r => r.length == 2)) := by
  refine ⟨?_, loadMap_filter content⟩
  intro a b hmem
  rw [loadMap_eq_filterMap content hnd]
  exact List.mem_filterMap.mpr ⟨[a, b], hmem, rfl⟩

/-- C7 witness: a malformed one-field row between two well-formed rows is
skipped while both well-formed rows load. -/
theorem C7_load_mapping_witness :
    ("t", "a") ∈ loadMap [["t", "a"], ["x"], ["s", "b"]] ∧
    ("s", "b") ∈ loadMap [["t", "a"], ["x"], ["s", "b"]] ∧
    loadMap [["t", "a"], ["x"], ["s", "b"]] =
      loadMap [["t", "a"], ["s", "b"]] :=
  ⟨(C7_load_mapping [["t", "a"], ["x"], ["s", "b"]] (by decide)).1 "t" "a" (by decide),
   (C7_load_mapping [["t", "a"], ["x"], ["s", "b"]] (by decide)).1 "s" "b" (by decide),
   (C7_load_mapping [["t", "a"], ["x"], ["s", "b"]] (by decide)).2⟩

/-- C8: tokenization emits one output record per input record with exactly
the input's column names in the input's order, values unchanged in every
non-configured column; a configured column absent from the record's schema
yields a warning and leaves the record unchanged at that column while
processing continues. -/
theorem C8_schema_preservation (gen : String → Mapping → String)
    (cols : List String) (rows : List Record) (st : TokState) :
    (tokenizeRows gen cols rows st).1.length = rows.length ∧
    ∀ pr ∈ rows.zip (tokenizeRows gen cols rows st).1,
      pr.2.map (·.1) = pr.1.map (·.1) ∧
      (∀ c, c ∉ cols → getCol pr.2 c = getCol pr.1 c) ∧
      (∀ c ∈ cols, getCol pr.1 c = none →
        getCol pr.2 c = none ∧
        colWarning c ∈ (tokenizeRows gen cols rows st).2.warnings) := by
  refine ⟨tokenizeRows_length gen cols rows st, ?_⟩
  intro pr hpr
  refine ⟨tokenizeRows_fst gen cols rows st pr hpr,
    fun c hc => tokenizeRows_frame gen cols rows st pr hpr c hc,
    fun c hc hn => ?_⟩
  obtain ⟨h1, h2⟩ := tokenizeRows_absent gen cols rows st pr hpr c hn
  exact ⟨h1, h2 hc⟩

/-- C8 witness: one record, a configured column `b` absent from its schema:
schema and values are preserved, the warning is logged, and the
non-configured column `a` is untouched. -/
theorem C8_schema_preservation_witness :
    (tokenizeRows generate_sequential_token ["b"] [[("a", "x")]] ⟨[], []⟩).1.length = 1 ∧
    getCol (tokenizeRows generate_sequential_token ["b"]
      [[("a", "x")]] ⟨[], []⟩).1.headI "b" = none ∧
    colWarning "b" ∈
      (tokenizeRows generate_sequential_token ["b"] [[("a", "x")]] ⟨[], []⟩).2.warnings ∧
    getCol (tokenizeRows generate_sequential_token ["b"]
      [[("a", "x")]] ⟨[], []⟩).1.headI "a" = some "x" := by
  have h := C8_schema_preservation generate_sequential_token ["b"] [[("a", "x")]] ⟨[], []⟩
  have hmem : ([("a", "x")],
      (tokenizeRows generate_sequential_token ["b"] [[("a", "x")]] ⟨[], []⟩).1.headI) ∈
      [[("a", "x")]].zip
        (tokenizeRows generate_sequential_token ["b"] [[("a", "x")]] ⟨[], []⟩).1 := by
    decide
  refine ⟨h.1, ?_, ?_, ?_⟩
  · exact ((h.2 _ hmem).2.2 "b" (by decide) (by decide)).1
  · exact ((h.2 _ hmem).2.2 "b" (by decide) (by decide)).2
  · exact (h.2 _ hmem).2.1 "a" (by decide)

/-- C10: tokenization only grows the mapping: the final map extends the
loaded one, every entry loaded from the pre-existing mapping file is
present in the saved file as a two-field row, and no loaded token's value
is ever changed. -/
theorem C10_mapping_grows (gen : String → Mapping → String)
    (hg : GenFresh gen) (cols : List String) (rows : List Record)
    (content : List (List String)) :
    (∃ ext, (tokenizeRows gen cols rows ⟨loadMap content, []⟩).2.map =
      loadMap content ++ ext) ∧
    (∀ p ∈ loadMap content,
      p ∈ (tokenizeRows gen cols rows ⟨loadMap content, []⟩).2.map ∧
      [p.1, p.2] ∈ saveMap (tokenizeRows gen cols rows ⟨loadMap content, []⟩).2.map) ∧
    (∀ t v v', (t, v) ∈ loadMap content →
      (t, v') ∈ (tokenizeRows gen cols rows ⟨loadMap content, []⟩).2.map →
      v' = v) := by
  obtain ⟨e, he, _⟩ := tokenizeRows_map_ext gen hg cols rows ⟨loadMap content, []⟩
  have hmem : ∀ p ∈ loadMap content,
      p ∈ (tokenizeRows gen cols rows ⟨loadMap content, []⟩).2.map := by
    intro p hp
    rw [he]
    exact List.mem_append_left _ hp
  have hnd : NodupKeys (tokenizeRows gen cols rows ⟨loadMap content, []⟩).2.map :=
    (tokenizeRows_nodup gen hg cols rows ⟨loadMap content, []⟩).1
      (loadMap_nodupKeys content)
  refine ⟨⟨e, he⟩, fun p hp => ⟨hmem p hp, ?_⟩, fun t v v' h1 h2 => ?_⟩
  · exact List.mem_map.mpr ⟨p, hmem p hp, rfl⟩
  · exact nodupKeys_value_unique hnd h2 (hmem _ h1)

/-- C10 witness: a loaded entry survives a sequential tokenization run that
adds a new entry. -/
theorem C10_mapping_grows_witness :
    ("t", "a") ∈ (tokenizeRows generate_sequential_token ["c"]
      [[("c", "x")]] ⟨loadMap [["t", "a"]], []⟩).2.map ∧
    ["t", "a"] ∈ saveMap (tokenizeRows generate_sequential_token ["c"]
      [[("c", "x")]] ⟨loadMap [["t", "a"]], []⟩).2.map :=
  (C10_mapping_grows generate_sequential_token
    generate_sequential_token_genFresh ["c"] [[("c", "x")]] [["t", "a"]]).2.1
    ("t", "a") (by decide)

/-- C4: tokenization preserves uniqueness of tokens as keys and of original
values as mapped values; a newly generated token is never an existing key
(sequential unconditionally, uuid whenever some draw within fuel is fresh);
and when a value already has a token, generation is not invoked: the
existing token is substituted and the mapping is left unchanged. -/
theorem C4_mapping_invariants :
    (∀ gen, GenFresh gen → ∀ (cols : List String) (rows : List Record)
      (st : TokState),
      (NodupKeys st.map → NodupKeys (tokenizeRows gen cols rows st).2.map) ∧
      (NodupVals st.map → NodupVals (tokenizeRows gen cols rows st).2.map)) ∧
    (∀ v m, revLookup m v = none →
      isKey m (generate_sequential_token v m) = false) ∧
    (∀ (stream : Nat → String) (fuel : Nat) v m, revLookup m v = none →
      (∃ j, j ≤ fuel ∧ isKey m (stream j) = false) →
      isKey m (generate_uuid_token stream fuel v m) = false) ∧
    (∀ gen (r : Record) (st : TokState) (c v t : String),
      getCol r c = some v → revLookup st.map v = some t →
      processColumn gen (r, st) c = (setCol r c t, st)) := by
  refine ⟨fun gen hg cols rows st => tokenizeRows_nodup gen hg cols rows st,
    generate_sequential_token_genFresh,
    fun stream fuel v m hv hs => generate_uuid_token_fresh stream fuel v m hv hs,
    fun gen r st c v t h1 h2 => ?_⟩
  simp [processColumn, h1, h2]

/-- C4 witness: instantiated with the sequential generator on a concrete
run, a fresh uuid draw, and a concrete reuse step. -/
theorem C4_mapping_invariants_witness :
    NodupKeys (tokenizeRows generate_sequential_token ["c"]
      [[("c", "x")], [("c", "y")]] ⟨[], []⟩).2.map ∧
    isKey [("1", "a")] (generate_sequential_token "b" [("1", "a")]) = false ∧
    isKey [("u0", "a")] (generate_uuid_token (fun n => "u" ++ Nat.repr n) 1 "b"
      [("u0", "a")]) = false ∧
    processColumn generate_sequential_token ([("c", "a")], ⟨[("1", "a")], []⟩) "c" =
      (setCol [("c", "a")] "c" "1", ⟨[("1", "a")], []⟩) :=
  ⟨(C4_mapping_invariants.1 generate_sequential_token
      generate_sequential_token_genFresh ["c"] [[("c", "x")], [("c", "y")]]
      ⟨[], []⟩).1 (by simp [NodupKeys, keys]),
   C4_mapping_invariants.2.1 "b" [("1", "a")] (by decide),
   C4_mapping_invariants.2.2.1 (fun n => "u" ++ Nat.repr n) 1 "b" [("u0", "a")]
     (by decide) ⟨1, by decide, by decide⟩,
   C4_mapping_invariants.2.2.2 generate_sequential_token [("c", "a")]
     ⟨[("1", "a")], []⟩ "c" "a" "1" (by decide) (by decide)⟩

/-- C3: within one pass, every configured-column occurrence of a value `v`
is replaced by the token `revLookup` finds for `v` in the final mapping —
so two occurrences of the same value get the identical token — and any
further pass reusing the resulting mapping store preserves every
established value-to-token association, so the same token is produced
across passes as well. -/
theorem C3_deterministic_tokens (gen : String → Mapping → String)
    (hg : GenFresh gen) (cols : List String) (hnd : cols.Nodup)
    (rows : List Record) (st : TokState) :
    (∀ pr ∈ rows.zip (tokenizeRows gen cols rows st).1, ∀ c ∈ cols, ∀ v,
      getCol pr.1 c = some v →
      getCol pr.2 c = revLookup (tokenizeRows gen cols rows st).2.map v) ∧
    (∀ (cols₂ : List String) (rows₂ : List Record) (v t : String),
      revLookup (tokenizeRows gen cols rows st).2.map v = some t →
      revLookup (tokenizeRows gen cols₂ rows₂
        ⟨(tokenizeRows gen cols rows st).2.map, []⟩).2.map v = some t) := by
  constructor
  · intro pr hpr c hc v hv
    obtain ⟨t, ht1, ht2⟩ := tokenizeRows_cell gen hg cols hnd rows st pr hpr c hc v hv
    rw [ht1, ht2]
  · intro cols₂ rows₂ v t ht
    obtain ⟨e, he, _⟩ := tokenizeRows_map_ext gen hg cols₂ rows₂
      ⟨(tokenizeRows gen cols rows st).2.map, []⟩
    rw [he]
    exact revLookup_append_left e ht

/-- C3 witness: the value `a` occurs twice (rows 1 and 3) and both cells
receive the token of `a` in the final sequential mapping; a second pass
from that mapping keeps the association. -/
theorem C3_deterministic_tokens_witness :
    getCol ((tokenizeRows generate_sequential_token ["c"]
      [[("c", "a")], [("c", "b")], [("c", "a")]] ⟨[], []⟩).1.headI) "c" =
      revLookup (tokenizeRows generate_sequential_token ["c"]
        [[("c", "a")], [("c", "b")], [("c", "a")]] ⟨[], []⟩).2.map "a" ∧
    revLookup (tokenizeRows generate_sequential_token ["c"] [[("c", "z")]]
      ⟨(tokenizeRows generate_sequential_token ["c"]
        [[("c", "a")], [("c", "b")], [("c", "a")]] ⟨[], []⟩).2.map, []⟩).2.map "a" =
      some "1" := by
  have h := C3_deterministic_tokens generate_sequential_token
    generate_sequential_token_genFresh ["c"] (by decide)
    [[("c", "a")], [("c", "b")], [("c", "a")]] ⟨[], []⟩
  constructor
  · exact h.1 ([("c", "a")],
      (tokenizeRows generate_sequential_token ["c"]
        [[("c", "a")], [("c", "b")], [("c", "a")]] ⟨[], []⟩).1.headI)
      (by decide) "c" (by decide) "a" (by decide)
  · exact h.2 ["c"] [[("c", "z")]] "a" "1" (by decide)

/-- C2: starting from a fresh (empty) mapping, the sequential strategy
produces a mapping of the shape `[("1", v₁), ("2", v₂), …]` over the
distinct values in order of first assignment — the n-th distinct value
gets token `"n"` — the generator returns the decimal form of the smallest
positive integer not yet a key, and a token, once assigned, keeps its
value: it is never reassigned to a different value within the mapping. -/
theorem C2_sequential_tokens :
    (∀ (cols : List String) (rows : List Record),
      ∃ vs : List String, vs.Nodup ∧
        (tokenizeRows generate_sequential_token cols rows ⟨[], []⟩).2.map =
          seqMap vs ∧
        ∀ i (h : i < vs.length),
          (Nat.repr (i + 1), vs.get ⟨i, h⟩) ∈ seqMap vs) ∧
    (∀ v m, revLookup m v = none →
      ∃ k, 1 ≤ k ∧ generate_sequential_token v m = Nat.repr k ∧
        isKey m (Nat.repr k) = false ∧
        ∀ j, 1 ≤ j → j < k → isKey m (Nat.repr j) = true) ∧
    (∀ (cols : List String) (rows : List Record) (st : TokState),
      NodupKeys st.map →
      ∀ t v v', (t, v) ∈ st.map →
        (t, v') ∈ (tokenizeRows generate_sequential_token cols rows st).2.map →
        v' = v) := by
  refine ⟨?_, ?_, ?_⟩
  · intro cols rows
    obtain ⟨vs, hnd, hm⟩ := tokenizeRows_seqShape cols rows ⟨[], []⟩
      ⟨[], List.nodup_nil, rfl⟩
    refine ⟨vs, hnd, hm, fun i h => ?_⟩
    have := seqMapFrom_get vs 0 i h
    simpa using this
  · intro v m hv
    obtain ⟨j, hj, hf⟩ := seq_fresh_exists m
    obtain ⟨h1, h2, h3⟩ := seqScan_spec m (m.length + 1) 1 ⟨j, by omega, hf⟩
    refine ⟨seqScan m (m.length + 1) 1, h1, ?_, h2, fun k hk1 hk2 => h3 k hk1 hk2⟩
    simp [generate_sequential_token, hv]
  · intro cols rows st hk t v v' h1 h2
    obtain ⟨e, he, _⟩ := tokenizeRows_map_ext generate_sequential_token
      generate_sequential_token_genFresh cols rows st
    have hnd : NodupKeys (tokenizeRows generate_sequential_token cols rows st).2.map :=
      (tokenizeRows_nodup generate_sequential_token
        generate_sequential_token_genFresh cols rows st).1 hk
    have hmem : (t, v) ∈ (tokenizeRows generate_sequential_token cols rows st).2.map := by
      rw [he]; exact List.mem_append_left _ h1
    exact nodupKeys_value_unique hnd h2 hmem

/-- C2 witness: on the spec's scenario the three distinct ssn values get
tokens 1, 2, 3 in order; the generator on `{"1" ↦ a}` mints `"2"`; and a
pre-existing assignment keeps its value. -/
theorem C2_sequential_tokens_witness :
    (∃ vs : List String, vs.Nodup ∧
      (tokenizeRows generate_sequential_token ["c"]
        [[("c", "x")], [("c", "y")], [("c", "x")]] ⟨[], []⟩).2.map = seqMap vs ∧
      ∀ i (h : i < vs.length),
        (Nat.repr (i + 1), vs.get ⟨i, h⟩) ∈ seqMap vs) ∧
    (∃ k, 1 ≤ k ∧ generate_sequential_token "b" [("1", "a")] = Nat.repr k ∧
      isKey [("1", "a")] (Nat.repr k) = false ∧
      ∀ j, 1 ≤ j → j < k → isKey [("1", "a")] (Nat.repr j) = true) ∧
    (∀ v', ("1", v') ∈ (tokenizeRows generate_sequential_token ["c"]
        [[("c", "b")]] ⟨[("1", "a")], []⟩).2.map → v' = "a") :=
  ⟨C2_sequential_tokens.1 ["c"] [[("c", "x")], [("c", "y")], [("c", "x")]],
   C2_sequential_tokens.2.1 "b" [("1", "a")] (by decide),
   fun v' hv' => C2_sequential_tokens.2.2 ["c"] [[("c", "b")]] ⟨[("1", "a")], []⟩
     (by simp [NodupKeys, keys]) "1" "a" v' (by decide) hv'⟩

/-- C1: running tokenization and then detokenization on its output, with
the mapping file the tokenization run saved, restores the original value at
every configured column of every record (under the claim's precondition
that no token of the final mapping equals a pre-existing data value in a
non-configured column; the restriction to configured columns in fact holds
regardless). -/
theorem C1_roundtrip (gen : String → Mapping → String) (hg : GenFresh gen)
    (cols : List String) (hnd : cols.Nodup) (rows : List Record)
    (m0 : Mapping) (hm0 : NodupKeys m0)
    (_hpre : ∀ t ∈ keys (tokenizeRows gen cols rows ⟨m0, []⟩).2.map,
      ∀ r ∈ rows, ∀ p ∈ r, p.1 ∉ cols → p.2 ≠ t) :
    ∃ restored,
      detokenize_data (some (tokenizeRows gen cols rows ⟨m0, []⟩).1)
        (some (saveMap (tokenizeRows gen cols rows ⟨m0, []⟩).2.map)) =
        .ok restored ∧
      restored.length = rows.length ∧
      ∀ pr ∈ rows.zip restored, ∀ c ∈ cols, getCol pr.2 c = getCol pr.1 c := by
  have hndf : NodupKeys (tokenizeRows gen cols rows ⟨m0, []⟩).2.map :=
    (tokenizeRows_nodup gen hg cols rows ⟨m0, []⟩).1 hm0
  have hload : loadMap (saveMap (tokenizeRows gen cols rows ⟨m0, []⟩).2.map) =
      (tokenizeRows gen cols rows ⟨m0, []⟩).2.map := loadMap_saveMap hndf
  refine ⟨(tokenizeRows gen cols rows ⟨m0, []⟩).1.map
    (detokenizeRow (loadMap (saveMap (tokenizeRows gen cols rows ⟨m0, []⟩).2.map))),
    rfl, ?_, ?_⟩
  · rw [List.length_map, tokenizeRows_length]
  · rw [hload]
    intro pr hpr c hc
    rw [List.zip_map_right] at hpr
    obtain ⟨pq, hpq, he⟩ := List.mem_map.mp hpr
    subst he
    show getCol (detokenizeRow (tokenizeRows gen cols rows ⟨m0, []⟩).2.map pq.2) c =
      getCol pq.1 c
    cases hv : getCol pq.1 c with
    | none =>
      have habs := (tokenizeRows_absent gen cols rows ⟨m0, []⟩ pq hpq c hv).1
      rw [getCol_detokenizeRow, habs]
      rfl
    | some v =>
      obtain ⟨t, ht1, ht2⟩ :=
        tokenizeRows_cell gen hg cols hnd rows ⟨m0, []⟩ pq hpq c hc v hv
      have hmem := mem_of_revLookup_eq_some ht2
      have hlk := lookupKey_of_mem_nodup hndf hmem
      rw [getCol_detokenizeRow, ht1]
      simp [hlk]

/-- C1 witness: two records, column `ssn` tokenized sequentially from an
empty mapping; no value of the non-configured `id` column equals a token. -/
theorem C1_roundtrip_witness :
    ∃ restored,
      detokenize_data (some (tokenizeRows generate_sequential_token ["ssn"]
          [[("id", "r1"), ("ssn", "111-22-3333")],
           [("id", "r2"), ("ssn", "444-55-6666")]] ⟨[], []⟩).1)
        (some (saveMap (tokenizeRows generate_sequential_token ["ssn"]
          [[("id", "r1"), ("ssn", "111-22-3333")],
           [("id", "r2"), ("ssn", "444-55-6666")]] ⟨[], []⟩).2.map)) =
        .ok restored ∧
      restored.length =
        ([[("id", "r1"), ("ssn", "111-22-3333")],
          [("id", "r2"), ("ssn", "444-55-6666")]] : List Record).length ∧
      ∀ pr ∈ ([[("id", "r1"), ("ssn", "111-22-3333")],
          [("id", "r2"), ("ssn", "444-55-6666")]] : List Record).zip restored,
        ∀ c ∈ ["ssn"], getCol pr.2 c = getCol pr.1 c :=
  C1_roundtrip generate_sequential_token generate_sequential_token_genFresh
    ["ssn"] (by decide)
    [[("id", "r1"), ("ssn", "111-22-3333")],
     [("id", "r2"), ("ssn", "444-55-6666")]]
    [] (by simp [NodupKeys, keys]) (by decide)

end DataTok
